import Mathlib

/-!
Shallow embedding of the create-embeddings PDF ingestion pipeline.

Source files modelled:
- `config.py` (constants),
- `src/pdf_processor.py` (`_clean_text`, `chunk_text`, `extract_text_from_pdf`,
  `process_pdf`),
- `archive/pdf_processor_memory_optimized.py` (`chunk_text_streaming`),
- `pdf_page_processor.py` (`_clean_text`, the per-page processing loop of
  `process_pdf_page_by_page`),
- `pdf_to_milvus_batch.py` (`generate_embeddings_in_batches`,
  `store_pdf_with_progress`),
- `src/embedding_generator.py` (`validate_embedding`),
- `src/milvus_client.py` (`create_collection`, `insert_documents`).

External collaborators (PyMuPDF, sentence-transformers / OpenAI, Milvus)
are parameters of the corresponding definitions: page texts and per-page
extraction failures are inputs, the embedding model is a function from
texts to vectors, Milvus insertion success is an oracle and the Milvus
collection is an explicit piece of state.  Vector components are modelled
as integers: none of the modelled control flow inspects component values,
only vector lengths and emptiness.  The two chunking loops do not
terminate on all inputs (see the divergence theorems below), so they are
modelled with an explicit fuel argument; `none` means the Python loop has
not returned within the given fuel, and a result that is `none` for every
fuel is a non-terminating run.
-/

/-! ### Configuration (`config.py`) -/

def CHUNK_SIZE : Nat := 1000

def CHUNK_OVERLAP : Nat := 200

def MAX_TEXT_LENGTH : Nat := 8192

/-- `DIMENSION = 1536 if USE_OPENAI_EMBEDDINGS else 384`; the shipped
default is `USE_OPENAI_EMBEDDINGS = false`, hence 384. -/
def DIMENSION : Nat := 384

/-! ### Text cleaning (`_clean_text` in `src/pdf_processor.py` and
`pdf_page_processor.py`)

`_clean_text` performs, in order: `re.sub(r'\s+', ' ', text)` (collapse
every whitespace run into a single space), a character filter keeping
word characters, whitespace and basic punctuation, `' '.join(text.split())`
(split on whitespace runs, dropping empty fields, and re-join with single
spaces), and `.strip()`. -/

def isSpaceChar (c : Char) : Bool := c.isWhitespace

def isWordChar (c : Char) : Bool := c.isAlphanum || c == '_'

/-- The punctuation characters kept by the filter regex
`[^\w\s\.\,\!\?\;\:\-\(\)\[\]\x7b\x7d]`. -/
def punctChars : List Char :=
  ['.', ',', '!', '?', ';', ':', '-', '(', ')', '[', ']', '\x7b', '\x7d']

def keepChar (c : Char) : Bool :=
  isWordChar c || isSpaceChar c || punctChars.contains c

/-- `re.sub(r'\s+', ' ', text)`: every maximal run of whitespace becomes
one single space character. -/
def collapseWs : List Char → List Char
  | [] => []
  | [c] => if isSpaceChar c then [' '] else [c]
  | c :: c' :: cs =>
    if isSpaceChar c && isSpaceChar c' then collapseWs (c' :: cs)
    else (if isSpaceChar c then ' ' else c) :: collapseWs (c' :: cs)

/-- Helper for `splitWs`: `acc` is the word currently being read. -/
def splitWsAcc : List Char → List Char → List (List Char)
  | acc, [] => if acc.isEmpty then [] else [acc]
  | acc, c :: cs =>
    if isSpaceChar c then
      if acc.isEmpty then splitWsAcc [] cs else acc :: splitWsAcc [] cs
    else splitWsAcc (acc ++ [c]) cs

/-- Python `str.split()` with no separator: split on whitespace runs and
drop empty fields. -/
def splitWs (l : List Char) : List (List Char) := splitWsAcc [] l

/-- `' '.join(ws)`. -/
def joinWords : List (List Char) → List Char
  | [] => []
  | [w] => w
  | w :: ws => w ++ ' ' :: joinWords ws

/-- Python `str.strip()`: drop leading and trailing whitespace. -/
def stripChars (l : List Char) : List Char :=
  ((l.dropWhile isSpaceChar).reverse.dropWhile isSpaceChar).reverse

def cleanChars (l : List Char) : List Char :=
  stripChars (joinWords (splitWs (List.filter keepChar (collapseWs l))))

/-- `PDFProcessor._clean_text` (`src/pdf_processor.py` lines 42-53). -/
def clean_text (s : String) : String := String.mk (cleanChars s.data)

/-- `PDFPageProcessor._clean_text` (`pdf_page_processor.py` lines 235-250):
identical to `PDFProcessor._clean_text` except for an initial
`if not text: return ""` guard. -/
def pp_clean_text (s : String) : String := if s = "" then "" else clean_text s

def pySplit (s : String) : List String := (splitWs s.data).map String.mk

def pyJoinSpace (ws : List String) : String :=
  String.mk (joinWords (ws.map String.data))

def pyStrip (s : String) : String := String.mk (stripChars s.data)

/-- Python string slicing `s[:n]` (by characters). -/
def pyTake (n : Nat) (s : String) : String := String.mk (s.data.take n)

/-! ### Chunking (`chunk_text`, `src/pdf_processor.py` lines 55-88) -/

structure PyChunk where
  chunk_id : Nat
  text : String
  start_word : Nat
  end_word : Nat
deriving DecidableEq

/-- The `while start < len(words)` loop of `chunk_text`.  Each iteration
takes `words[start:end]` with `end = min(start + CHUNK_SIZE, len(words))`,
appends a chunk whose id is `chunk_id + len(chunks)`, sets
`start = end - CHUNK_OVERLAP` and breaks when `start >= len(words)`.
Fuel bounds the number of iterations; `none` means the loop is still
running when the fuel runs out. -/
def chunkTextLoop (words : List String) (chunk_id : Nat) :
    Nat → Nat → List PyChunk → Option (List PyChunk)
  | 0, _, _ => none
  | fuel + 1, start, chunks =>
    if start < words.length then
      let e := min (start + CHUNK_SIZE) words.length
      let piece := pyJoinSpace ((words.drop start).take (e - start))
      let chunks' := chunks ++ [⟨chunk_id + chunks.length, piece, start, e⟩]
      let start' := e - CHUNK_OVERLAP
      if start' ≥ words.length then some chunks'
      else chunkTextLoop words chunk_id fuel start' chunks'
    else some chunks

/-- `PDFProcessor.chunk_text(text, chunk_id)`. -/
def chunk_text (fuel : Nat) (text : String) (chunk_id : Nat) :
    Option (List PyChunk) :=
  let words := pySplit text
  if words.length ≤ CHUNK_SIZE then
    some [⟨chunk_id, text, 0, words.length⟩]
  else chunkTextLoop words chunk_id fuel 0 []

/-- The chunk-producing loop of
`UltraMemoryOptimizedPDFProcessor.chunk_text_streaming`
(`archive/pdf_processor_memory_optimized.py` lines 136-157); identical to
the `chunk_text` loop except that ids use an explicit `chunk_counter`. -/
def chunkStreamLoop (words : List String) (chunk_id : Nat) :
    Nat → Nat → Nat → List PyChunk → Option (List PyChunk)
  | 0, _, _, _ => none
  | fuel + 1, start, counter, acc =>
    if start < words.length then
      let e := min (start + CHUNK_SIZE) words.length
      let piece := pyJoinSpace ((words.drop start).take (e - start))
      let acc' := acc ++ [⟨chunk_id + counter, piece, start, e⟩]
      let start' := e - CHUNK_OVERLAP
      if start' ≥ words.length then some acc'
      else chunkStreamLoop words chunk_id fuel start' (counter + 1) acc'
    else some acc

/-- `UltraMemoryOptimizedPDFProcessor.chunk_text_streaming(text, chunk_id)`,
with the yielded chunks collected into a list (consuming the generator). -/
def chunk_text_streaming (fuel : Nat) (text : String) (chunk_id : Nat) :
    Option (List PyChunk) :=
  if pyStrip text = "" then some []
  else
    let words := pySplit text
    if words.length ≤ CHUNK_SIZE then some [⟨chunk_id, text, 0, words.length⟩]
    else chunkStreamLoop words chunk_id fuel 0 0 []

/-- A concrete 1000-word text. -/
def text1000 : String := pyJoinSpace (List.replicate 1000 "a")

/-- A concrete 1001-word text. -/
def text1001 : String := pyJoinSpace (List.replicate 1001 "a")

/-! ### Page extraction (`PDFProcessor.extract_text_from_pdf`,
`src/pdf_processor.py` lines 14-40)

A source page is modelled by the text PyMuPDF would return for it plus a
flag saying whether `load_page`/`get_text` raises for that page.  The
Python `try` block wraps the whole page loop, so the first raising page
aborts the loop and the `except` branch returns `[]`. -/

structure PageIn where
  raises : Bool
  text : String
deriving DecidableEq

structure PageOut where
  page_number : Nat
  text : String
deriving DecidableEq

/-- The page loop of `extract_text_from_pdf`; `none` models an exception
escaping the loop (page geometry is not modelled). -/
def extractLoop : Nat → List PageIn → Option (List PageOut)
  | _, [] => some []
  | i, p :: rest =>
    if p.raises then none
    else
      let t := clean_text p.text
      match extractLoop (i + 1) rest with
      | none => none
      | some tail =>
        if pyStrip t ≠ "" then some (⟨i + 1, t⟩ :: tail) else some tail

/-- `PDFProcessor.extract_text_from_pdf`: the surrounding
`try/except` turns any exception into the return value `[]`. -/
def extract_text_from_pdf (pages : List PageIn) : List PageOut :=
  (extractLoop 0 pages).getD []

/-- Exception-free characterization of the page loop, used in proofs. -/
def extractPure : Nat → List PageIn → List PageOut
  | _, [] => []
  | i, p :: rest =>
    if pyStrip (clean_text p.text) ≠ "" then
      ⟨i + 1, clean_text p.text⟩ :: extractPure (i + 1) rest
    else extractPure (i + 1) rest

/-! ### `PDFProcessor.process_pdf` (`src/pdf_processor.py` lines 90-125) -/

structure DocChunk where
  chunk_id : Nat
  text : String
  start_word : Nat
  end_word : Nat
  document_id : String
  page_number : Nat
deriving DecidableEq

/-- `chunk.update({"document_id": ..., "page_number": ...})` (page
geometry omitted). -/
def stampChunk (docId : String) (pageNum : Nat) (c : PyChunk) : DocChunk :=
  ⟨c.chunk_id, c.text, c.start_word, c.end_word, docId, pageNum⟩

/-- The page loop of `process_pdf`: chunk each page starting at the
running `chunk_counter`, stamp metadata, and advance the counter by the
number of chunks of the page. -/
def processPages (fuel : Nat) (docId : String) :
    List PageOut → Nat → Option (List DocChunk)
  | [], _ => some []
  | pg :: rest, counter =>
    match chunk_text fuel pg.text counter with
    | none => none
    | some pcs =>
      match processPages fuel docId rest (counter + pcs.length) with
      | none => none
      | some tail => some (pcs.map (stampChunk docId pg.page_number) ++ tail)

/-- `PDFProcessor.process_pdf(pdf_path, document_id)`. -/
def process_pdf (fuel : Nat) (pages : List PageIn) (docId : String) :
    Option (List DocChunk) :=
  let pgs := extract_text_from_pdf pages
  if pgs.isEmpty then some []
  else processPages fuel docId pgs 0

/-! ### `PDFPageProcessor.process_pdf_page_by_page`
(`pdf_page_processor.py` lines 108-193)

The LangChain splitter and the embedding model are external
collaborators, modelled as function parameters.  The result collects the
records handed to `insert_documents`; a chunk whose embedding comes back
empty is skipped, a page whose extraction raises is skipped by the
per-page `except ...: continue`, and `chunk_id = page_num * 1000 +
chunk_idx` with 0-based `page_num`. -/

structure PPRec where
  document_id : String
  page_number : Nat
  chunk_id : Nat
  text : String
  embedding : List Int
deriving DecidableEq

/-- The `for chunk_idx, chunk_text in enumerate(page_chunks)` loop. -/
def ppChunkRecs (docId : String) (embed : String → List Int)
    (pageIdx : Nat) : Nat → List String → List PPRec
  | _, [] => []
  | idx, ct :: rest =>
    (if embed ct ≠ [] then
      [⟨docId, pageIdx + 1, pageIdx * 1000 + idx, ct, embed ct⟩]
    else [])
      ++ ppChunkRecs docId embed pageIdx (idx + 1) rest

/-- One iteration of the page loop: a raising page contributes nothing
(the `except` clause continues), an empty cleaned page is skipped. -/
def ppPageRecs (docId : String) (splitter : String → List String)
    (embed : String → List Int) (pageIdx : Nat) (p : PageIn) : List PPRec :=
  if p.raises then []
  else
    let t := pp_clean_text p.text
    if pyStrip t ≠ "" then ppChunkRecs docId embed pageIdx 0 (splitter t)
    else []

/-- The `for page_num in range(total_pages)` loop of
`process_pdf_page_by_page`, returning every record handed to Milvus. -/
def process_pdf_page_by_page (docId : String)
    (splitter : String → List String) (embed : String → List Int) :
    Nat → List PageIn → List PPRec
  | _, [] => []
  | i, p :: rest =>
    ppPageRecs docId splitter embed i p
      ++ process_pdf_page_by_page docId splitter embed (i + 1) rest

/-! ### Embedding batching (`PDFToMilvusBatch.generate_embeddings_in_batches`,
`pdf_to_milvus_batch.py` lines 90-132, and
`EmbeddingGenerator.validate_embedding`, `src/embedding_generator.py`
lines 89-108) -/

structure BChunk where
  chunk_id : Nat
  text : String
deriving DecidableEq

/-- Helper for `chunkBatches`: structural recursion on a fuel argument
that starts at the list length (each step consumes at least the head, so
the fuel never runs out on the reachable states). -/
def chunkBatchesGo {α : Type} (n : Nat) : Nat → List α → List (List α)
  | _, [] => []
  | 0, a :: l => [a :: l]
  | fuel + 1, a :: l => (a :: l.take (n - 1)) :: chunkBatchesGo n fuel (l.drop (n - 1))

/-- `for i in range(0, len(chunks), n): batch = chunks[i:i + n]`.
Meaningful for `n ≥ 1` (Python raises `ValueError` on step 0). -/
def chunkBatches {α : Type} (n : Nat) (l : List α) : List (List α) :=
  chunkBatchesGo n l.length l

/-- `PDFToMilvusBatch.generate_embeddings_in_batches(chunks)`: embed each
sub-batch of `ebs` texts with one collaborator call `gen`, and keep the
`j`-th chunk of the sub-batch only when `j < len(embeddings)` — i.e. zip
the sub-batch with the returned vectors. -/
def generate_embeddings_in_batches (gen : List String → List (List Int))
    (ebs : Nat) (chunks : List BChunk) : List (BChunk × List Int) :=
  (chunkBatches ebs chunks).flatMap fun b => b.zip (gen (b.map BChunk.text))

/-- `EmbeddingGenerator.validate_embedding(embedding)`; `expected_dim`
stands for `self.get_embedding_dimension()` (the collaborator's declared
dimension).  All model vector elements are numeric, so the
`isinstance` check never fails. -/
def validate_embedding (expected_dim : Nat) (e : List Int) : Bool :=
  if e.isEmpty then false
  else if 0 < expected_dim ∧ e.length ≠ expected_dim then false
  else true

/-! ### `PDFToMilvusBatch.store_pdf_with_progress`
(`pdf_to_milvus_batch.py` lines 134-221)

`allChunks` stands for the output of `process_pdf` (modelled above);
`insertOk` is the Milvus `insert_documents` success oracle. -/

structure StoreState where
  succ : Nat
  failed : Nat
  stored : List (BChunk × List Int)

/-- One iteration of the batch loop of `store_pdf_with_progress`. -/
def storeBatchStep (gen : List String → List (List Int)) (ebs dim : Nat)
    (insertOk : List (BChunk × List Int) → Bool) (st : StoreState)
    (batch : List BChunk) : StoreState :=
  let cwe := generate_embeddings_in_batches gen ebs batch
  if cwe.isEmpty then ⟨st.succ, st.failed + batch.length, st.stored⟩
  else
    let valid := cwe.filter fun ce => validate_embedding dim ce.2
    if valid.isEmpty then ⟨st.succ, st.failed + batch.length, st.stored⟩
    else if insertOk valid then
      ⟨st.succ + valid.length, st.failed, st.stored ++ valid⟩
    else ⟨st.succ, st.failed + valid.length, st.stored⟩

/-- `PDFToMilvusBatch.store_pdf_with_progress`: returns the Python return
value `successful_chunks > 0` together with the chunks actually handed to
a successful Milvus insertion. -/
def store_pdf_with_progress (fileExists : Bool) (allChunks : List BChunk)
    (bs ebs dim : Nat) (gen : List String → List (List Int))
    (insertOk : List (BChunk × List Int) → Bool) :
    Bool × List (BChunk × List Int) :=
  if !fileExists then (false, [])
  else if allChunks.isEmpty then (false, [])
  else
    let fin := (chunkBatches bs allChunks).foldl
      (storeBatchStep gen ebs dim insertOk) ⟨0, 0, []⟩
    (decide (0 < fin.succ), fin.stored)

/-! ### Milvus collection management (`MilvusClient.create_collection`,
`src/milvus_client.py` lines 40-93)

The external collection state is `none` (absent) or an existing
collection carrying its field-name list and its stored rows (`rows`
counts them; drop-and-recreate loses them). -/

structure CollectionInfo where
  fields : List String
  rows : Nat
deriving DecidableEq

def expectedFieldNames : List String :=
  ["id", "document_id", "page_number", "chunk_id", "text", "embedding"]

/-- `Collection(name=self.collection_name, schema=schema)` with the
expected schema: a fresh, empty collection. -/
def freshCollection : CollectionInfo := ⟨expectedFieldNames, 0⟩

/-- `MilvusClient.create_collection`: verify the field list of an
existing collection, dropping and recreating it on mismatch; the index
creation step does not affect the schema and is omitted. -/
def create_collection (s : Option CollectionInfo) :
    Option CollectionInfo × Bool :=
  match s with
  | some c =>
    if c.fields ≠ expectedFieldNames then (some freshCollection, true)
    else (some c, true)
  | none => (some freshCollection, true)

/-! ### `MilvusClient.insert_documents` (`src/milvus_client.py`
lines 95-172)

A record is a Python dict which may be missing keys, modelled with
`Option` fields. -/

structure InsDoc where
  document_id : Option String
  page_number : Option Int
  chunk_id : Option Int
  text : Option String
  embedding : Option (List Int)
deriving DecidableEq

structure ValidDoc where
  document_id : String
  page_number : Int
  chunk_id : Int
  text : String
  embedding : List Int
deriving DecidableEq

/-- The per-document validation of `insert_documents`: skip (`continue`)
when any required key is missing, otherwise truncate `document_id` to 100
characters and `text` to `MAX_TEXT_LENGTH` characters. -/
def toValidDoc (d : InsDoc) : Option ValidDoc :=
  match d.document_id, d.page_number, d.chunk_id, d.text, d.embedding with
  | some did, some pn, some cid, some tx, some emb =>
    some ⟨pyTake 100 did, pn, cid, pyTake MAX_TEXT_LENGTH tx, emb⟩
  | _, _, _, _, _ => none

/-- `MilvusClient.insert_documents(documents)`: the returned list is what
gets passed to `self.collection.insert`. -/
def insert_documents (collectionReady : Bool) (docs : List InsDoc) :
    Bool × List ValidDoc :=
  if !collectionReady then (false, [])
  else if docs.isEmpty then (true, [])
  else
    let valid := docs.filterMap toValidDoc
    if valid.isEmpty then (false, []) else (true, valid)

/-- No two adjacent characters are both whitespace. -/
def notBothSpace (a b : Char) : Prop :=
  isSpaceChar a = false ∨ isSpaceChar b = false

/-! ## Lemmas about the text-cleaning pipeline -/

theorem takeWhile_append_all {α : Type} {p : α → Bool} {xs : List α}
    (ys : List α) (h : ∀ x ∈ xs, p x = true) :
    (xs ++ ys).takeWhile p = xs ++ ys.takeWhile p := by
  induction xs with
  | nil => simp
  | cons a l ih =>
    simp only [List.cons_append, List.takeWhile_cons, h a (by simp),
      if_true, List.cons.injEq, true_and]
    exact ih fun x hx => h x (by simp [hx])

theorem dropWhile_append_all {α : Type} {p : α → Bool} {xs : List α}
    (ys : List α) (h : ∀ x ∈ xs, p x = true) :
    (xs ++ ys).dropWhile p = ys.dropWhile p := by
  induction xs with
  | nil => simp
  | cons a l ih =>
    simp only [List.cons_append, List.dropWhile_cons, h a (by simp), if_true]
    exact ih fun x hx => h x (by simp [hx])

theorem takeWhile_head_neg {α : Type} {p : α → Bool} {ys : List α}
    (h : ∀ c ∈ ys.head?, p c = false) : ys.takeWhile p = [] := by
  cases ys with
  | nil => rfl
  | cons a l =>
    have := h a (by simp)
    simp [List.takeWhile_cons, this]

theorem dropWhile_head_neg {α : Type} {p : α → Bool} {ys : List α}
    (h : ∀ c ∈ ys.head?, p c = false) : ys.dropWhile p = ys := by
  cases ys with
  | nil => rfl
  | cons a l =>
    have := h a (by simp)
    simp [List.dropWhile_cons, this]

theorem splitWs_cons_space {c : Char} (cs : List Char)
    (h : isSpaceChar c = true) : splitWs (c :: cs) = splitWs cs := by
  simp [splitWs, splitWsAcc, h]

theorem splitWsAcc_word (cs : List Char) : ∀ acc : List Char, acc ≠ [] →
    splitWsAcc acc cs
      = (acc ++ cs.takeWhile (fun d => !isSpaceChar d))
        :: splitWs (cs.dropWhile (fun d => !isSpaceChar d)) := by
  induction cs with
  | nil =>
    intro acc hacc
    simp [splitWsAcc, splitWs, List.isEmpty_eq_true, hacc]
  | cons c cs ih =>
    intro acc hacc
    by_cases hc : isSpaceChar c = true
    · have hne : acc.isEmpty = false := by
        cases acc with
        | nil => exact absurd rfl hacc
        | cons _ _ => rfl
      have h1 : splitWsAcc acc (c :: cs) = acc :: splitWs cs := by
        simp [splitWsAcc, hc, hne, splitWs]
      have h2 : (c :: cs).takeWhile (fun d => !isSpaceChar d) = [] := by
        simp [List.takeWhile_cons, hc]
      have h3 : (c :: cs).dropWhile (fun d => !isSpaceChar d) = c :: cs := by
        simp [List.dropWhile_cons, hc]
      rw [h1, h2, h3, List.append_nil, splitWs_cons_space cs hc]
    · have hcb : (!isSpaceChar c) = true := by simp [hc]
      have h1 : splitWsAcc acc (c :: cs) = splitWsAcc (acc ++ [c]) cs := by
        simp [splitWsAcc, hc]
      have h2 : (c :: cs).takeWhile (fun d => !isSpaceChar d)
          = c :: cs.takeWhile (fun d => !isSpaceChar d) := by
        simp [List.takeWhile_cons, hcb]
      have h3 : (c :: cs).dropWhile (fun d => !isSpaceChar d)
          = cs.dropWhile (fun d => !isSpaceChar d) := by
        simp [List.dropWhile_cons, hcb]
      rw [h1, h2, h3, ih (acc ++ [c]) (by simp)]
      simp

theorem splitWs_cons_eq (c : Char) (cs : List Char) :
    splitWs (c :: cs) =
      if isSpaceChar c then splitWs cs
      else (c :: cs.takeWhile (fun d => !isSpaceChar d))
        :: splitWs (cs.dropWhile (fun d => !isSpaceChar d)) := by
  by_cases hc : isSpaceChar c = true
  · rw [if_pos hc]
    exact splitWs_cons_space cs hc
  · rw [if_neg hc]
    have : splitWs (c :: cs) = splitWsAcc [c] cs := by
      simp [splitWs, splitWsAcc, hc]
    rw [this, splitWsAcc_word cs [c] (by simp)]
    simp

theorem splitWs_word_append (w r : List Char) (hw : w ≠ [])
    (hns : ∀ c ∈ w, isSpaceChar c = false)
    (hr : ∀ c ∈ r.head?, isSpaceChar c = true) :
    splitWs (w ++ r) = w :: splitWs r := by
  cases w with
  | nil => exact absurd rfl hw
  | cons c cs =>
    rw [List.cons_append, splitWs_cons_eq]
    have hc : isSpaceChar c = false := hns c (by simp)
    rw [if_neg (by simp [hc])]
    have hall : ∀ x ∈ cs, (fun d => !isSpaceChar d) x = true := by
      intro x hx; simp [hns x (by simp [hx])]
    have hhead : ∀ x ∈ r.head?, (fun d => !isSpaceChar d) x = false := by
      intro x hx; simp [hr x hx]
    rw [takeWhile_append_all r hall, dropWhile_append_all r hall,
      takeWhile_head_neg hhead, dropWhile_head_neg hhead, List.append_nil]

theorem joinWords_cons_cons (w x : List Char) (ws : List (List Char)) :
    joinWords (w :: x :: ws) = w ++ ' ' :: joinWords (x :: ws) := rfl

theorem splitWs_joinWords (ws : List (List Char))
    (h1 : ∀ w ∈ ws, w ≠ [])
    (h2 : ∀ w ∈ ws, ∀ c ∈ w, isSpaceChar c = false) :
    splitWs (joinWords ws) = ws := by
  have h0 : splitWs ([] : List Char) = [] := rfl
  induction ws with
  | nil => simpa [joinWords] using h0
  | cons w tl ih =>
    cases tl with
    | nil =>
      have h := splitWs_word_append w [] (h1 w (by simp))
        (h2 w (by simp)) (by intro c hc; simp at hc)
      rw [List.append_nil, h0] at h
      simpa [joinWords] using h
    | cons x ws' =>
      rw [joinWords_cons_cons,
        splitWs_word_append w (' ' :: joinWords (x :: ws')) (h1 w (by simp))
          (h2 w (by simp))
          (by intro c hc; simp at hc; subst hc; decide),
        splitWs_cons_space _ (by decide)]
      rw [ih (fun u hu => h1 u (by simp [hu])) (fun u hu => h2 u (by simp [hu]))]

theorem splitWs_sound_aux :
    ∀ (n : Nat) (l : List Char), l.length ≤ n → ∀ w ∈ splitWs l,
      w ≠ [] ∧ ∀ c ∈ w, isSpaceChar c = false ∧ c ∈ l := by
  intro n
  induction n with
  | zero =>
    intro l hl w hw
    have : l = [] := List.length_eq_zero.mp (Nat.le_zero.mp hl)
    subst this
    simp [splitWs, splitWsAcc] at hw
  | succ n ih =>
    intro l hl w hw
    cases l with
    | nil => simp [splitWs, splitWsAcc] at hw
    | cons c cs =>
      rw [splitWs_cons_eq] at hw
      by_cases hc : isSpaceChar c = true
      · rw [if_pos hc] at hw
        have := ih cs (by simpa using Nat.le_of_succ_le_succ hl) w hw
        exact ⟨this.1, fun d hd => ⟨(this.2 d hd).1, by simp [(this.2 d hd).2]⟩⟩
      · rw [if_neg hc] at hw
        rcases List.mem_cons.mp hw with h | h
        · subst h
          refine ⟨by simp, ?_⟩
          intro d hd
          rcases List.mem_cons.mp hd with h' | h'
          · subst h'
            exact ⟨Bool.eq_false_iff.mpr hc, by simp⟩
          · have hp := List.mem_takeWhile_imp h'
            have hmem : d ∈ cs :=
              (List.takeWhile_prefix (fun d => !isSpaceChar d)).sublist.subset h'
            exact ⟨by simpa using hp, by simp [hmem]⟩
        · have hlen : (cs.dropWhile (fun d => !isSpaceChar d)).length ≤ n := by
            have := (List.dropWhile_suffix
              (fun d => !isSpaceChar d) (l := cs)).sublist.length_le
            have hcs : cs.length ≤ n := by simpa using Nat.le_of_succ_le_succ hl
            omega
          have := ih _ hlen w h
          refine ⟨this.1, fun d hd => ⟨(this.2 d hd).1, ?_⟩⟩
          have : d ∈ cs :=
            (List.dropWhile_suffix (fun d => !isSpaceChar d)).sublist.subset
              (this.2 d hd).2
          simp [this]

theorem splitWs_sound (l : List Char) :
    ∀ w ∈ splitWs l, w ≠ [] ∧ ∀ c ∈ w, isSpaceChar c = false ∧ c ∈ l :=
  splitWs_sound_aux l.length l (Nat.le_refl _)

theorem stripChars_eq_self (l : List Char)
    (h1 : ∀ c ∈ l.head?, isSpaceChar c = false)
    (h2 : ∀ c ∈ l.getLast?, isSpaceChar c = false) :
    stripChars l = l := by
  unfold stripChars
  rw [dropWhile_head_neg h1]
  rw [dropWhile_head_neg (by simpa [List.head?_reverse] using h2)]
  exact List.reverse_reverse l

theorem joinWords_ne_nil (ws : List (List Char)) (hne : ws ≠ [])
    (h1 : ∀ w ∈ ws, w ≠ []) : joinWords ws ≠ [] := by
  cases ws with
  | nil => exact absurd rfl hne
  | cons w tl =>
    cases tl with
    | nil => simpa [joinWords] using h1 w (by simp)
    | cons x ws' =>
      rw [joinWords_cons_cons]
      exact List.append_ne_nil_of_left_ne_nil (h1 w (by simp)) _

theorem mem_joinWords (ws : List (List Char)) (c : Char)
    (hc : c ∈ joinWords ws) : c = ' ' ∨ ∃ w ∈ ws, c ∈ w := by
  induction ws with
  | nil => simp [joinWords] at hc
  | cons w tl ih =>
    cases tl with
    | nil =>
      simp only [joinWords] at hc
      exact Or.inr ⟨w, by simp, hc⟩
    | cons x ws' =>
      rw [joinWords_cons_cons] at hc
      rcases List.mem_append.mp hc with h | h
      · exact Or.inr ⟨w, by simp, h⟩
      · rcases List.mem_cons.mp h with h' | h'
        · exact Or.inl h'
        · rcases ih h' with h'' | ⟨u, hu, hcu⟩
          · exact Or.inl h''
          · exact Or.inr ⟨u, by simp [hu], hcu⟩

theorem joinWords_head (ws : List (List Char))
    (h1 : ∀ w ∈ ws, w ≠ [])
    (h2 : ∀ w ∈ ws, ∀ c ∈ w, isSpaceChar c = false) :
    ∀ c ∈ (joinWords ws).head?, isSpaceChar c = false := by
  cases ws with
  | nil => intro c hc; simp [joinWords] at hc
  | cons w tl =>
    have hwne : w ≠ [] := h1 w (by simp)
    have hhw : ∀ c ∈ w.head?, isSpaceChar c = false := by
      intro c hc
      exact h2 w (by simp) c (List.mem_of_mem_head? hc)
    cases tl with
    | nil => simpa [joinWords] using hhw
    | cons x ws' =>
      rw [joinWords_cons_cons]
      intro c hc
      rw [List.head?_append] at hc
      cases hw : w.head? with
      | none => exact absurd (List.head?_eq_none_iff.mp hw) hwne
      | some d =>
        rw [hw] at hc
        simp only [Option.or_some, Option.mem_some_iff] at hc
        subst hc
        exact hhw d (by simp [hw])

theorem joinWords_getLast (ws : List (List Char))
    (h1 : ∀ w ∈ ws, w ≠ [])
    (h2 : ∀ w ∈ ws, ∀ c ∈ w, isSpaceChar c = false) :
    ∀ c ∈ (joinWords ws).getLast?, isSpaceChar c = false := by
  induction ws with
  | nil => intro c hc; simp [joinWords] at hc
  | cons w tl ih =>
    cases tl with
    | nil =>
      intro c hc
      simp only [joinWords] at hc
      have : c ∈ w := by
        have := List.head?_reverse w
        rw [← this] at hc
        have := List.mem_of_mem_head? hc
        simpa using this
      exact h2 w (by simp) c this
    | cons x ws' =>
      rw [joinWords_cons_cons]
      intro c hc
      have htl : joinWords (x :: ws') ≠ [] :=
        joinWords_ne_nil _ (by simp) (fun u hu => h1 u (by simp [hu]))
      rw [List.getLast?_append] at hc
      have hlast : (' ' :: joinWords (x :: ws')).getLast? =
          (joinWords (x :: ws')).getLast? := by
        have : (' ' :: joinWords (x :: ws')) = [' '] ++ joinWords (x :: ws') := rfl
        rw [this, List.getLast?_append]
        cases hgl : (joinWords (x :: ws')).getLast? with
        | none =>
          exact absurd (List.getLast?_eq_none_iff.mp hgl) htl
        | some d => simp
      rw [hlast] at hc
      cases hgl : (joinWords (x :: ws')).getLast? with
      | none => exact absurd (List.getLast?_eq_none_iff.mp hgl) htl
      | some d =>
        rw [hgl] at hc
        simp only [Option.or_some, Option.mem_some_iff] at hc
        subst hc
        exact ih (fun u hu => h1 u (by simp [hu]))
          (fun u hu => h2 u (by simp [hu])) d (by simp [hgl])

theorem chain'_of_all_nonspace (l : List Char)
    (h : ∀ c ∈ l, isSpaceChar c = false) : List.Chain' notBothSpace l := by
  induction l with
  | nil => exact List.chain'_nil
  | cons a tl ih =>
    rw [List.chain'_cons']
    refine ⟨fun y _ => Or.inl (h a (by simp)), ih fun c hc => h c (by simp [hc])⟩

theorem joinWords_chain (ws : List (List Char))
    (h1 : ∀ w ∈ ws, w ≠ [])
    (h2 : ∀ w ∈ ws, ∀ c ∈ w, isSpaceChar c = false) :
    List.Chain' notBothSpace (joinWords ws) := by
  induction ws with
  | nil => exact List.chain'_nil
  | cons w tl ih =>
    have hw : ∀ c ∈ w, isSpaceChar c = false := h2 w (by simp)
    cases tl with
    | nil => exact chain'_of_all_nonspace w hw
    | cons x ws' =>
      rw [joinWords_cons_cons]
      refine List.Chain'.append (chain'_of_all_nonspace w hw) ?_ ?_
      · rw [List.chain'_cons']
        refine ⟨?_, ih (fun u hu => h1 u (by simp [hu]))
          (fun u hu => h2 u (by simp [hu]))⟩
        intro y hy
        exact Or.inr (joinWords_head (x :: ws')
          (fun u hu => h1 u (by simp [hu]))
          (fun u hu => h2 u (by simp [hu])) y hy)
      · intro a ha y hy
        have haw : a ∈ w := by
          rw [← List.head?_reverse] at ha
          simpa using List.mem_of_mem_head? ha
        exact Or.inl (hw a haw)

theorem joinWords_space_eq (ws : List (List Char))
    (h2 : ∀ w ∈ ws, ∀ c ∈ w, isSpaceChar c = false) :
    ∀ c ∈ joinWords ws, isSpaceChar c = true → c = ' ' := by
  intro c hc hsp
  rcases mem_joinWords ws c hc with h | ⟨w, hw, hcw⟩
  · exact h
  · rw [h2 w hw c hcw] at hsp
    exact absurd hsp (by simp)

theorem joinWords_all_keep (ws : List (List Char))
    (h3 : ∀ w ∈ ws, ∀ c ∈ w, keepChar c = true) :
    ∀ c ∈ joinWords ws, keepChar c = true := by
  intro c hc
  rcases mem_joinWords ws c hc with h | ⟨w, hw, hcw⟩
  · subst h; decide
  · exact h3 w hw c hcw

theorem collapseWs_eq_self : ∀ l : List Char,
    List.Chain' notBothSpace l →
    (∀ c ∈ l, isSpaceChar c = true → c = ' ') →
    collapseWs l = l := by
  intro l
  induction l with
  | nil => intro _ _; rfl
  | cons c tl ih =>
    intro hch hsp
    cases tl with
    | nil =>
      by_cases h : isSpaceChar c = true
      · have := hsp c (by simp) h
        simp [collapseWs, h, this]
      · simp [collapseWs, h]
    | cons c' cs =>
      have hR : notBothSpace c c' := (List.chain'_cons.mp hch).1
      have hnb : (isSpaceChar c && isSpaceChar c') = false := by
        rcases hR with h | h <;> simp [h]
      rw [collapseWs, if_neg (by simp [hnb])]
      have hrest := ih (List.chain'_cons.mp hch).2
        (fun d hd hds => hsp d (by simp [hd]) hds)
      rw [hrest]
      by_cases h : isSpaceChar c = true
      · rw [if_pos h, hsp c (by simp) h]
      · rw [if_neg h]

theorem cleanChars_eq_joinWords (l : List Char) :
    cleanChars l =
      joinWords (splitWs (List.filter keepChar (collapseWs l))) := by
  unfold cleanChars
  set ws := splitWs (List.filter keepChar (collapseWs l)) with hws
  have h1 : ∀ w ∈ ws, w ≠ [] := fun w hw => (splitWs_sound _ w hw).1
  have h2 : ∀ w ∈ ws, ∀ c ∈ w, isSpaceChar c = false :=
    fun w hw c hc => ((splitWs_sound _ w hw).2 c hc).1
  exact stripChars_eq_self _ (joinWords_head ws h1 h2) (joinWords_getLast ws h1 h2)

theorem cleanChars_fixed (ws : List (List Char))
    (h1 : ∀ w ∈ ws, w ≠ [])
    (h2 : ∀ w ∈ ws, ∀ c ∈ w, isSpaceChar c = false)
    (h3 : ∀ w ∈ ws, ∀ c ∈ w, keepChar c = true) :
    cleanChars (joinWords ws) = joinWords ws := by
  rw [cleanChars_eq_joinWords]
  rw [collapseWs_eq_self (joinWords ws) (joinWords_chain ws h1 h2)
    (joinWords_space_eq ws h2)]
  rw [List.filter_eq_self.mpr (joinWords_all_keep ws h3)]
  rw [splitWs_joinWords ws h1 h2]

theorem cleanChars_idem (l : List Char) :
    cleanChars (cleanChars l) = cleanChars l := by
  rw [cleanChars_eq_joinWords l]
  set ws := splitWs (List.filter keepChar (collapseWs l)) with hws
  have h1 : ∀ w ∈ ws, w ≠ [] := fun w hw => (splitWs_sound _ w hw).1
  have h2 : ∀ w ∈ ws, ∀ c ∈ w, isSpaceChar c = false :=
    fun w hw c hc => ((splitWs_sound _ w hw).2 c hc).1
  have h3 : ∀ w ∈ ws, ∀ c ∈ w, keepChar c = true := by
    intro w hw c hc
    exact List.of_mem_filter ((splitWs_sound _ w hw).2 c hc).2
  exact cleanChars_fixed ws h1 h2 h3

theorem stripChars_cleanChars (l : List Char) :
    stripChars (cleanChars l) = cleanChars l := by
  rw [cleanChars_eq_joinWords l]
  set ws := splitWs (List.filter keepChar (collapseWs l)) with hws
  have h1 : ∀ w ∈ ws, w ≠ [] := fun w hw => (splitWs_sound _ w hw).1
  have h2 : ∀ w ∈ ws, ∀ c ∈ w, isSpaceChar c = false :=
    fun w hw c hc => ((splitWs_sound _ w hw).2 c hc).1
  exact stripChars_eq_self _ (joinWords_head ws h1 h2) (joinWords_getLast ws h1 h2)

theorem pyStrip_clean_text (s : String) :
    pyStrip (clean_text s) = clean_text s := by
  unfold pyStrip clean_text
  simp [stripChars_cleanChars]

/-- Claim C9: the text-cleaning function is idempotent: for every string
`t`, `clean(clean(t)) = clean(t)`; this holds for
`PDFProcessor._clean_text` and for the identical
`PDFPageProcessor._clean_text`. -/
theorem clean_text_idempotent (t : String) :
    clean_text (clean_text t) = clean_text t ∧
    pp_clean_text (pp_clean_text t) = pp_clean_text t := by
  have hmain : ∀ s : String, clean_text (clean_text s) = clean_text s := by
    intro s
    unfold clean_text
    simp [cleanChars_idem]
  refine ⟨hmain t, ?_⟩
  unfold pp_clean_text
  by_cases h : t = ""
  · simp [h]
  · rw [if_neg h]
    by_cases h2 : clean_text t = ""
    · rw [if_pos h2, h2]
    · rw [if_neg h2, hmain t]

/-! ## Lemmas about chunking -/

theorem pySplit_pyJoinSpace (ws : List String)
    (h1 : ∀ w ∈ ws, w ≠ "")
    (h2 : ∀ w ∈ ws, ∀ c ∈ w.data, isSpaceChar c = false) :
    pySplit (pyJoinSpace ws) = ws := by
  unfold pySplit pyJoinSpace
  have hdata : (String.mk (joinWords (ws.map String.data))).data
      = joinWords (ws.map String.data) := rfl
  rw [hdata, splitWs_joinWords]
  · rw [List.map_map]
    have : (String.mk ∘ String.data) = id := by
      funext s; rfl
    rw [this, List.map_id]
  · intro w hw
    rcases List.mem_map.mp hw with ⟨s, hs, rfl⟩
    intro hnil
    apply h1 s hs
    have : s = String.mk s.data := rfl
    rw [this, hnil]
  · intro w hw
    rcases List.mem_map.mp hw with ⟨s, hs, rfl⟩
    exact h2 s hs

theorem pySplit_replicate_a (n : Nat) :
    pySplit (pyJoinSpace (List.replicate n "a")) = List.replicate n "a" := by
  apply pySplit_pyJoinSpace
  · intro w hw
    rw [(List.mem_replicate.mp hw).2]
    decide
  · intro w hw c hc
    rw [(List.mem_replicate.mp hw).2] at hc
    have : c = 'a' := by simpa using hc
    rw [this]
    decide

theorem pyStrip_text1001 : pyStrip text1001 ≠ "" := by
  unfold text1001 pyStrip pyJoinSpace
  have hgood1 : ∀ w ∈ (List.replicate 1001 "a").map String.data, w ≠ [] := by
    intro w hw
    rcases List.mem_map.mp hw with ⟨s, hs, rfl⟩
    rw [(List.mem_replicate.mp hs).2]
    decide
  have hgood2 : ∀ w ∈ (List.replicate 1001 "a").map String.data,
      ∀ c ∈ w, isSpaceChar c = false := by
    intro w hw c hc
    rcases List.mem_map.mp hw with ⟨s, hs, rfl⟩
    rw [(List.mem_replicate.mp hs).2] at hc
    have : c = 'a' := by simpa using hc
    rw [this]; decide
  have hdata : (String.mk (joinWords ((List.replicate 1001 "a").map String.data))).data
      = joinWords ((List.replicate 1001 "a").map String.data) := rfl
  rw [hdata]
  rw [stripChars_eq_self _
    (joinWords_head _ hgood1 hgood2) (joinWords_getLast _ hgood1 hgood2)]
  intro h
  apply joinWords_ne_nil _ ?_ hgood1
  · exact congrArg String.data h
  · intro hmap
    have := congrArg List.length hmap
    rw [List.length_map, List.length_replicate] at this
    exact absurd this (by norm_num)

theorem chunkTextLoop_diverges (words : List String) (cid : Nat)
    (hlen : CHUNK_SIZE < words.length) :
    ∀ fuel start acc, start < words.length →
      chunkTextLoop words cid fuel start acc = none := by
  intro fuel
  induction fuel with
  | zero => intro start acc _; rfl
  | succ fuel ih =>
    intro start acc h
    have hov : CHUNK_SIZE = 1000 ∧ CHUNK_OVERLAP = 200 := ⟨rfl, rfl⟩
    have hlt : min (start + CHUNK_SIZE) words.length - CHUNK_OVERLAP
        < words.length := by
      have := Nat.min_le_right (start + CHUNK_SIZE) words.length
      omega
    simp only [chunkTextLoop]
    rw [if_pos h, if_neg (by omega)]
    exact ih _ _ hlt

theorem chunkStreamLoop_diverges (words : List String) (cid : Nat)
    (hlen : CHUNK_SIZE < words.length) :
    ∀ fuel start counter acc, start < words.length →
      chunkStreamLoop words cid fuel start counter acc = none := by
  intro fuel
  induction fuel with
  | zero => intro start counter acc _; rfl
  | succ fuel ih =>
    intro start counter acc h
    have hov : CHUNK_SIZE = 1000 ∧ CHUNK_OVERLAP = 200 := ⟨rfl, rfl⟩
    have hlt : min (start + CHUNK_SIZE) words.length - CHUNK_OVERLAP
        < words.length := by
      have := Nat.min_le_right (start + CHUNK_SIZE) words.length
      omega
    simp only [chunkStreamLoop]
    rw [if_pos h, if_neg (by omega)]
    exact ih _ _ _ hlt

/-- Claim C1: `chunk_text` on a 1000-word text does return a single chunk,
but on a 1001-word text the claimed result (2 chunks, the second starting
at word 800) is never produced: the `while` loop never terminates, because
once `end == len(words)` the update `start = end - CHUNK_OVERLAP` leaves
`start` fixed below `len(words)` and the `break` guard
`start >= len(words)` is unreachable.  `none` for every fuel value means
the loop runs forever. -/
theorem chunk_text_evidence :
    (∀ fuel, chunk_text fuel text1000 0 = some [⟨0, text1000, 0, 1000⟩]) ∧
    (∀ fuel, chunk_text fuel text1001 0 = none) := by
  constructor
  · intro fuel
    simp only [chunk_text, text1000, pySplit_replicate_a 1000,
      List.length_replicate]
    rw [if_pos (by norm_num [CHUNK_SIZE])]
  · intro fuel
    simp only [chunk_text, text1001, pySplit_replicate_a 1001,
      List.length_replicate]
    rw [if_neg (by norm_num [CHUNK_SIZE])]
    exact chunkTextLoop_diverges _ 0
      (by rw [List.length_replicate]; norm_num [CHUNK_SIZE]) fuel 0 []
      (by rw [List.length_replicate]; norm_num)

/-- Claim C2: with the shipped configuration `CHUNK_OVERLAP = 200 <
1000 = CHUNK_SIZE`, `chunk_text_streaming` still fails to terminate on a
1001-word text: its loop is the same unreachable-`break` loop, so the
generator yields chunks forever instead of a finite sequence. -/
theorem chunk_text_streaming_evidence :
    CHUNK_OVERLAP < CHUNK_SIZE ∧
    (∀ fuel, chunk_text_streaming fuel text1001 0 = none) := by
  refine ⟨by norm_num [CHUNK_SIZE, CHUNK_OVERLAP], ?_⟩
  intro fuel
  simp only [chunk_text_streaming]
  rw [if_neg pyStrip_text1001]
  simp only [text1001, pySplit_replicate_a 1001, List.length_replicate]
  rw [if_neg (by norm_num [CHUNK_SIZE])]
  exact chunkStreamLoop_diverges _ 0
    (by rw [List.length_replicate]; norm_num [CHUNK_SIZE]) fuel 0 0 []
    (by rw [List.length_replicate]; norm_num)

/-! ## Lemmas about page extraction -/

theorem ppPageRecs_raises (docId : String) (sp : String → List String)
    (em : String → List Int) (i : Nat) (p : PageIn) (h : p.raises = true) :
    ppPageRecs docId sp em i p = [] := by
  simp [ppPageRecs, h]

theorem ppPageRecs_blank (docId : String) (sp : String → List String)
    (em : String → List Int) (i : Nat) :
    ppPageRecs docId sp em i ⟨false, ""⟩ = [] := by
  have h1 : pp_clean_text "" = "" := rfl
  have h2 : pyStrip "" = "" := rfl
  simp [ppPageRecs, h1, h2]

theorem extractLoop_raises :
    ∀ (pages : List PageIn) (i : Nat), (∃ q ∈ pages, q.raises = true) →
      extractLoop i pages = none := by
  intro pages
  induction pages with
  | nil => intro i h; simp at h
  | cons p rest ih =>
    intro i h
    by_cases hp : p.raises = true
    · simp [extractLoop, hp]
    · rcases h with ⟨q, hq, hqr⟩
      rcases List.mem_cons.mp hq with rfl | hq'
      · exact absurd hqr hp
      · simp only [extractLoop, Bool.not_eq_true] at hp ⊢
        rw [hp]
        simp only [Bool.false_eq_true, if_false]
        rw [ih (i + 1) ⟨q, hq', hqr⟩]

theorem extractLoop_ok :
    ∀ (pages : List PageIn) (i : Nat), (∀ p ∈ pages, p.raises = false) →
      extractLoop i pages = some (extractPure i pages) := by
  intro pages
  induction pages with
  | nil => intro i _; rfl
  | cons p rest ih =>
    intro i h
    have hp : p.raises = false := h p (by simp)
    have htail := ih (i + 1) (fun q hq => h q (by simp [hq]))
    simp only [extractLoop, extractPure, hp, Bool.false_eq_true, if_false, htail]
    by_cases hc : pyStrip (clean_text p.text) ≠ ""
    · rw [if_pos hc, if_pos hc]
    · rw [if_neg hc, if_neg hc]

theorem extractPure_mem_pageNumbers :
    ∀ (pages : List PageIn) (i n : Nat),
      n ∈ (extractPure i pages).map PageOut.page_number ↔
        ∃ j p, pages[j]? = some p ∧ n = i + j + 1 ∧
          pyStrip (clean_text p.text) ≠ "" := by
  intro pages
  induction pages with
  | nil =>
    intro i n
    simp [extractPure]
  | cons p rest ih =>
    intro i n
    by_cases hp : pyStrip (clean_text p.text) ≠ ""
    · simp only [extractPure, if_pos hp, List.map_cons, List.mem_cons]
      constructor
      · rintro (rfl | hmem)
        · exact ⟨0, p, by simp, by omega, hp⟩
        · rcases (ih (i + 1) n).mp hmem with ⟨j, q, hq, hn, hcond⟩
          exact ⟨j + 1, q, by simpa using hq, by omega, hcond⟩
      · rintro ⟨j, q, hq, hn, hcond⟩
        cases j with
        | zero =>
          simp only [List.getElem?_cons_zero, Option.some.injEq] at hq
          subst hq
          left
          omega
        | succ j =>
          right
          refine (ih (i + 1) n).mpr ⟨j, q, by simpa using hq, by omega, hcond⟩
    · simp only [extractPure, if_neg hp]
      rw [ih (i + 1) n]
      constructor
      · rintro ⟨j, q, hq, hn, hcond⟩
        exact ⟨j + 1, q, by simpa using hq, by omega, hcond⟩
      · rintro ⟨j, q, hq, hn, hcond⟩
        cases j with
        | zero =>
          simp only [List.getElem?_cons_zero, Option.some.injEq] at hq
          subst hq
          exact absurd hcond hp
        | succ j =>
          exact ⟨j, q, by simpa using hq, by omega, hcond⟩

theorem extractPure_pageNumbers_lt :
    ∀ (pages : List PageIn) (i : Nat),
      (∀ n ∈ (extractPure i pages).map PageOut.page_number, i < n) ∧
      List.Pairwise (· < ·) ((extractPure i pages).map PageOut.page_number) := by
  intro pages
  induction pages with
  | nil => intro i; simp [extractPure]
  | cons p rest ih =>
    intro i
    by_cases hp : pyStrip (clean_text p.text) ≠ ""
    · simp only [extractPure, if_pos hp, List.map_cons]
      constructor
      · intro n hn
        rcases List.mem_cons.mp hn with rfl | hmem
        · omega
        · have := (ih (i + 1)).1 n hmem
          omega
      · rw [List.pairwise_cons]
        refine ⟨?_, (ih (i + 1)).2⟩
        intro n hn
        have := (ih (i + 1)).1 n hn
        omega
    · simp only [extractPure, if_neg hp]
      refine ⟨?_, (ih (i + 1)).2⟩
      intro n hn
      have := (ih (i + 1)).1 n hn
      omega

/-- Claim C3 counterexample: in `PDFProcessor.extract_text_from_pdf` a
single failing page does NOT merely skip that page: the `try` block wraps
the whole page loop, so one extraction error discards every page.  A
1-page document with extractable page "hello" yields that page, but
adding a second, failing page makes the whole result empty instead of
`[⟨1, "hello"⟩]`. -/
theorem extract_page_error_counterexample :
    extract_text_from_pdf [⟨false, "hello"⟩] = [⟨1, "hello"⟩] ∧
    extract_text_from_pdf [⟨false, "hello"⟩, ⟨true, "world"⟩] = [] := by
  decide

/-- Claim C3 amended: per-page error containment holds only in
`PDFPageProcessor.process_pdf_page_by_page`, whose per-page
`except ...: continue` makes a raising page equivalent to a blank page
(it is skipped and the stream continues); in
`PDFProcessor.extract_text_from_pdf`, any raising page aborts the whole
extraction and the entire page list is lost. -/
theorem page_error_containment (docId : String)
    (splitter : String → List String) (embed : String → List Int)
    (i : Nat) (pre post : List PageIn) (p : PageIn) (pages : List PageIn)
    (h1 : p.raises = true) (h2 : ∃ q ∈ pages, q.raises = true) :
    process_pdf_page_by_page docId splitter embed i (pre ++ p :: post)
      = process_pdf_page_by_page docId splitter embed i
          (pre ++ (⟨false, ""⟩ : PageIn) :: post) ∧
    extract_text_from_pdf pages = [] := by
  constructor
  · induction pre generalizing i with
    | nil =>
      simp only [List.nil_append, process_pdf_page_by_page]
      rw [ppPageRecs_raises docId splitter embed i p h1,
        ppPageRecs_blank docId splitter embed i]
    | cons q pre ih =>
      simp only [List.cons_append, process_pdf_page_by_page, List.append_eq]
      rw [ih (i + 1)]
  · unfold extract_text_from_pdf
    rw [extractLoop_raises pages 0 h2]
    rfl

/-- Witness for C3: concrete two-page run where the second page raises. -/
theorem page_error_containment_witness :
    (PageIn.mk true "boom").raises = true ∧
    (∃ q ∈ [(⟨true, "boom"⟩ : PageIn)], q.raises = true) ∧
    (process_pdf_page_by_page "d" (fun _ => ["w"]) (fun _ => [1]) 0
        ([⟨false, "hello"⟩] ++ (⟨true, "boom"⟩ : PageIn) :: [])
      = process_pdf_page_by_page "d" (fun _ => ["w"]) (fun _ => [1]) 0
          ([⟨false, "hello"⟩] ++ (⟨false, ""⟩ : PageIn) :: []) ∧
     extract_text_from_pdf [⟨true, "boom"⟩] = []) :=
  ⟨rfl, ⟨⟨true, "boom"⟩, by simp, rfl⟩,
    page_error_containment "d" (fun _ => ["w"]) (fun _ => [1]) 0
      [⟨false, "hello"⟩] [] ⟨true, "boom"⟩ [⟨true, "boom"⟩] rfl
      ⟨⟨true, "boom"⟩, by simp, rfl⟩⟩

/-- Claim C7: when no page raises, the page stream yields a page exactly
when its cleaned text is non-empty, with 1-based page numbers in strictly
ascending order (so for a 3-page PDF with a blank page 2, only pages 1
and 3 appear). -/
theorem extract_pages_iff_nonblank (pages : List PageIn)
    (h : ∀ p ∈ pages, p.raises = false) :
    (∀ n, n ∈ (extract_text_from_pdf pages).map PageOut.page_number ↔
      ∃ j p, pages[j]? = some p ∧ n = j + 1 ∧ clean_text p.text ≠ "") ∧
    List.Pairwise (· < ·)
      ((extract_text_from_pdf pages).map PageOut.page_number) := by
  have hex : extract_text_from_pdf pages = extractPure 0 pages := by
    unfold extract_text_from_pdf
    rw [extractLoop_ok pages 0 h]
    rfl
  rw [hex]
  constructor
  · intro n
    rw [extractPure_mem_pageNumbers pages 0 n]
    constructor
    · rintro ⟨j, p, hj, hn, hc⟩
      rw [pyStrip_clean_text] at hc
      exact ⟨j, p, hj, by omega, hc⟩
    · rintro ⟨j, p, hj, hn, hc⟩
      refine ⟨j, p, hj, by omega, ?_⟩
      rw [pyStrip_clean_text]
      exact hc
  · exact (extractPure_pageNumbers_lt pages 0).2

/-- Witness for C7: a 3-page document whose middle page cleans to the
empty string yields page numbers 1 and 3 only. -/
theorem extract_pages_iff_nonblank_witness :
    (∀ p ∈ [(⟨false, "hello"⟩ : PageIn), ⟨false, "@@"⟩, ⟨false, "world"⟩],
      p.raises = false) ∧
    ((2 ∈ (extract_text_from_pdf
        [(⟨false, "hello"⟩ : PageIn), ⟨false, "@@"⟩, ⟨false, "world"⟩]).map
          PageOut.page_number) ↔
      ∃ j p, [(⟨false, "hello"⟩ : PageIn), ⟨false, "@@"⟩,
          ⟨false, "world"⟩][j]? = some p ∧ 2 = j + 1 ∧
        clean_text p.text ≠ "") ∧
    List.Pairwise (· < ·)
      ((extract_text_from_pdf
        [(⟨false, "hello"⟩ : PageIn), ⟨false, "@@"⟩, ⟨false, "world"⟩]).map
          PageOut.page_number) :=
  ⟨by decide,
    (extract_pages_iff_nonblank _ (by decide)).1 2,
    (extract_pages_iff_nonblank _ (by decide)).2⟩

/-! ## Lemmas about chunk-id assignment -/

theorem ppChunkRecs_ids (docId : String) (embed : String → List Int)
    (pageIdx : Nat) :
    ∀ (cts : List String) (idx : Nat),
      (∀ n ∈ (ppChunkRecs docId embed pageIdx idx cts).map PPRec.chunk_id,
        pageIdx * 1000 + idx ≤ n ∧ n < pageIdx * 1000 + idx + cts.length) ∧
      List.Pairwise (· < ·)
        ((ppChunkRecs docId embed pageIdx idx cts).map PPRec.chunk_id) := by
  intro cts
  induction cts with
  | nil => intro idx; simp [ppChunkRecs]
  | cons ct rest ih =>
    intro idx
    by_cases he : embed ct ≠ []
    · simp only [ppChunkRecs, if_pos he, List.singleton_append, List.map_cons]
      constructor
      · intro n hn
        rcases List.mem_cons.mp hn with rfl | hmem
        · simp only [List.length_cons]
          omega
        · have := ((ih (idx + 1)).1) n hmem
          simp only [List.length_cons]
          omega
      · rw [List.pairwise_cons]
        refine ⟨?_, (ih (idx + 1)).2⟩
        intro n hn
        have := ((ih (idx + 1)).1) n hn
        omega
    · simp only [ppChunkRecs, if_neg he, List.nil_append]
      constructor
      · intro n hn
        have := ((ih (idx + 1)).1) n hn
        simp only [List.length_cons]
        omega
      · exact (ih (idx + 1)).2

theorem ppPageRecs_ids (docId : String) (splitter : String → List String)
    (embed : String → List Int) (i : Nat) (p : PageIn)
    (hsp : ∀ t, (splitter t).length ≤ 1000) :
    (∀ n ∈ (ppPageRecs docId splitter embed i p).map PPRec.chunk_id,
      i * 1000 ≤ n ∧ n < (i + 1) * 1000) ∧
    List.Pairwise (· < ·) ((ppPageRecs docId splitter embed i p).map PPRec.chunk_id) := by
  unfold ppPageRecs
  by_cases hr : p.raises = true
  · simp [hr]
  · rw [if_neg hr]
    by_cases hc : pyStrip (pp_clean_text p.text) ≠ ""
    · rw [if_pos hc]
      have h := ppChunkRecs_ids docId embed i (splitter (pp_clean_text p.text)) 0
      have hlen := hsp (pp_clean_text p.text)
      refine ⟨?_, h.2⟩
      intro n hn
      have := h.1 n hn
      omega
    · rw [if_neg hc]
      simp

theorem pp_process_ids (docId : String) (splitter : String → List String)
    (embed : String → List Int)
    (hsp : ∀ t, (splitter t).length ≤ 1000) :
    ∀ (pages : List PageIn) (i : Nat),
      (∀ n ∈ (process_pdf_page_by_page docId splitter embed i pages).map
          PPRec.chunk_id, i * 1000 ≤ n ∧ n < (i + pages.length) * 1000) ∧
      List.Pairwise (· < ·)
        ((process_pdf_page_by_page docId splitter embed i pages).map
          PPRec.chunk_id) := by
  intro pages
  induction pages with
  | nil => intro i; simp [process_pdf_page_by_page]
  | cons p rest ih =>
    intro i
    simp only [process_pdf_page_by_page, List.map_append]
    have hpage := ppPageRecs_ids docId splitter embed i p hsp
    have hrest := ih (i + 1)
    constructor
    · intro n hn
      rcases List.mem_append.mp hn with h | h
      · have := hpage.1 n h
        simp only [List.length_cons]
        constructor
        · omega
        · have : n < (i + 1) * 1000 := this.2
          nlinarith
      · have := hrest.1 n h
        simp only [List.length_cons]
        constructor
        · nlinarith [this.1]
        · have h2 := this.2
          have : (i + 1 + rest.length) * 1000 = (i + (rest.length + 1)) * 1000 := by
            ring
          omega
    · rw [List.pairwise_append]
      refine ⟨hpage.2, hrest.2, ?_⟩
      intro a ha b hb
      have h1 := (hpage.1 a ha).2
      have h2 := (hrest.1 b hb).1
      omega

theorem chunkTextLoop_ids (words : List String) (cid : Nat) :
    ∀ (fuel start : Nat) (acc res : List PyChunk),
      chunkTextLoop words cid fuel start acc = some res →
      acc.map PyChunk.chunk_id = List.range' cid acc.length →
      res.map PyChunk.chunk_id = List.range' cid res.length := by
  intro fuel
  induction fuel with
  | zero =>
    intro start acc res h _
    exact absurd h (by simp [chunkTextLoop])
  | succ fuel ih =>
    intro start acc res h hacc
    have happ : ∀ k : PyChunk, k.chunk_id = cid + acc.length →
        (acc ++ [k]).map PyChunk.chunk_id
          = List.range' cid (acc ++ [k]).length := by
      intro k hk
      rw [List.map_append, hacc]
      simp only [List.map_cons, List.map_nil, List.length_append,
        List.length_cons, List.length_nil, hk, Nat.add_zero]
      have hr : List.range' cid (acc.length + 1)
          = List.range' cid acc.length ++ [cid + 1 * acc.length] :=
        List.range'_concat cid acc.length
      rw [hr, Nat.one_mul]
    simp only [chunkTextLoop] at h
    by_cases hs : start < words.length
    · rw [if_pos hs] at h
      by_cases hb : min (start + CHUNK_SIZE) words.length - CHUNK_OVERLAP
          ≥ words.length
      · rw [if_pos hb] at h
        rw [← Option.some_inj.mp h]
        exact happ _ rfl
      · rw [if_neg hb] at h
        exact ih _ _ res h (happ _ rfl)
    · rw [if_neg hs] at h
      rw [← Option.some_inj.mp h]
      exact hacc

theorem chunk_text_ids (fuel : Nat) (t : String) (cid : Nat)
    (cs : List PyChunk) (h : chunk_text fuel t cid = some cs) :
    cs.map PyChunk.chunk_id = List.range' cid cs.length := by
  simp only [chunk_text] at h
  by_cases hle : (pySplit t).length ≤ CHUNK_SIZE
  · rw [if_pos hle] at h
    rw [← Option.some_inj.mp h]
    simp
  · rw [if_neg hle] at h
    exact chunkTextLoop_ids (pySplit t) cid fuel 0 [] cs h (by simp)

theorem processPages_ids (fuel : Nat) (docId : String) :
    ∀ (pgs : List PageOut) (counter : Nat) (cs : List DocChunk),
      processPages fuel docId pgs counter = some cs →
      cs.map DocChunk.chunk_id = List.range' counter cs.length := by
  intro pgs
  induction pgs with
  | nil =>
    intro counter cs h
    simp only [processPages, Option.some_inj] at h
    rw [← h]
    simp
  | cons pg rest ih =>
    intro counter cs h
    cases hct : chunk_text fuel pg.text counter with
    | none => simp [processPages, hct] at h
    | some pcs =>
      cases hrec : processPages fuel docId rest (counter + pcs.length) with
      | none => simp [processPages, hct, hrec] at h
      | some tail =>
        simp only [processPages, hct, hrec, Option.some_inj] at h
        rw [← h]
        have hp := chunk_text_ids fuel pg.text counter pcs hct
        have ht := ih (counter + pcs.length) tail hrec
        rw [List.map_append, List.map_map]
        have hcomp : (DocChunk.chunk_id ∘ stampChunk docId pg.page_number)
            = PyChunk.chunk_id := by
          funext c; rfl
        rw [hcomp, hp, ht]
        rw [List.length_append, List.length_map]
        have := List.range'_append counter pcs.length tail.length 1
        rw [Nat.one_mul] at this
        rw [this]
        congr 1
        omega

theorem process_pdf_ids (fuel : Nat) (pages : List PageIn) (docId : String)
    (cs : List DocChunk) (h : process_pdf fuel pages docId = some cs) :
    cs.map DocChunk.chunk_id = List.range' 0 cs.length := by
  simp only [process_pdf] at h
  by_cases he : (extract_text_from_pdf pages).isEmpty
  · rw [if_pos he] at h
    rw [← Option.some_inj.mp h]
    simp
  · rw [if_neg he] at h
    exact processPages_ids fuel docId (extract_text_from_pdf pages) 0 cs h

theorem pairwise_lt_range'_one (s n : Nat) :
    List.Pairwise (· < ·) (List.range' s n) :=
  List.pairwise_lt_range' s n 1 (by omega)

set_option maxRecDepth 100000 in
set_option maxHeartbeats 1000000 in
/-- Claim C6 counterexample: in `process_pdf_page_by_page` the id scheme
`chunk_id = page_num * 1000 + chunk_idx` collides as soon as a page
yields more than 1000 chunks: with a first page split into 1001 chunks
and a second page with one chunk, the id 1000 is assigned twice, so the
ids of a single document are neither strictly increasing nor unique. -/
theorem chunk_ids_collision_counterexample :
    (((process_pdf_page_by_page "d"
        (fun t => if t = "a" then List.replicate 1001 "w" else ["w"])
        (fun _ => [1]) 0 [⟨false, "a"⟩, ⟨false, "b"⟩]).map
          PPRec.chunk_id).count 1000) = 2 := by
  decide

/-- Claim C6 amended: chunk ids are strictly increasing (page order, then
intra-page window order) and unique within a document, provided that, in
the `page_num * 1000 + chunk_idx` scheme of
`process_pdf_page_by_page`, every page yields at most 1000 chunks; the
running-counter scheme of `PDFProcessor.process_pdf` needs no side
condition (on terminating runs its ids are exactly `0, 1, 2, ...`). -/
theorem chunk_ids_strictly_increasing
    (docId docId2 : String) (splitter : String → List String)
    (embed : String → List Int) (pages pages2 : List PageIn)
    (fuel : Nat) (cs : List DocChunk)
    (hsp : ∀ t, (splitter t).length ≤ 1000)
    (hterm : process_pdf fuel pages2 docId2 = some cs) :
    (List.Pairwise (· < ·)
        ((process_pdf_page_by_page docId splitter embed 0 pages).map
          PPRec.chunk_id) ∧
      ((process_pdf_page_by_page docId splitter embed 0 pages).map
        PPRec.chunk_id).Nodup) ∧
    (List.Pairwise (· < ·) (cs.map DocChunk.chunk_id) ∧
      (cs.map DocChunk.chunk_id).Nodup) := by
  have hpp := (pp_process_ids docId splitter embed hsp pages 0).2
  have hpdf : cs.map DocChunk.chunk_id = List.range' 0 cs.length :=
    process_pdf_ids fuel pages2 docId2 cs hterm
  refine ⟨⟨hpp, hpp.imp (fun hab => Nat.ne_of_lt hab)⟩, ?_⟩
  rw [hpdf]
  exact ⟨pairwise_lt_range'_one 0 cs.length,
    (pairwise_lt_range'_one 0 cs.length).imp (fun hab => Nat.ne_of_lt hab)⟩

/-- Witness for C6: a concrete two-page document for each of the two id
schemes. -/
theorem chunk_ids_strictly_increasing_witness :
    (∀ t : String, ((fun _ : String => ["w"]) t).length ≤ 1000) ∧
    process_pdf 5 [⟨false, "hello"⟩, ⟨false, "world"⟩] "doc"
      = some [⟨0, "hello", 0, 1, "doc", 1⟩, ⟨1, "world", 0, 1, "doc", 2⟩] ∧
    ((List.Pairwise (· < ·)
        ((process_pdf_page_by_page "d" (fun _ => ["w"]) (fun _ => [1]) 0
          [⟨false, "hello"⟩, ⟨false, "world"⟩]).map PPRec.chunk_id) ∧
      ((process_pdf_page_by_page "d" (fun _ => ["w"]) (fun _ => [1]) 0
        [⟨false, "hello"⟩, ⟨false, "world"⟩]).map PPRec.chunk_id).Nodup) ∧
    (List.Pairwise (· < ·)
        (([⟨0, "hello", 0, 1, "doc", 1⟩,
          (⟨1, "world", 0, 1, "doc", 2⟩ : DocChunk)]).map DocChunk.chunk_id) ∧
      (([⟨0, "hello", 0, 1, "doc", 1⟩,
        (⟨1, "world", 0, 1, "doc", 2⟩ : DocChunk)]).map DocChunk.chunk_id).Nodup)) :=
  ⟨fun _ => by norm_num, by decide,
    chunk_ids_strictly_increasing "d" "doc" (fun _ => ["w"]) (fun _ => [1])
      [⟨false, "hello"⟩, ⟨false, "world"⟩] [⟨false, "hello"⟩, ⟨false, "world"⟩]
      5 _ (fun _ => by norm_num) (by decide)⟩

/-! ## Lemmas about embedding batching and storing -/

theorem chunkBatchesGo_fuel {α : Type} (n : Nat) :
    ∀ (f1 : Nat), ∀ (f2 : Nat) (l : List α), l.length ≤ f1 → l.length ≤ f2 →
      chunkBatchesGo n f1 l = chunkBatchesGo n f2 l := by
  intro f1
  induction f1 with
  | zero =>
    intro f2 l h1 _
    have : l = [] := List.length_eq_zero.mp (Nat.le_zero.mp h1)
    subst this
    cases f2 <;> rfl
  | succ f1 ih =>
    intro f2 l h1 h2
    cases l with
    | nil => cases f2 <;> rfl
    | cons a l =>
      cases f2 with
      | zero => simp at h2
      | succ f2 =>
        simp only [chunkBatchesGo]
        congr 1
        have hd : (l.drop (n - 1)).length ≤ l.length := by
          simp [List.length_drop]
        exact ih f2 (l.drop (n - 1))
          (by simp at h1; omega) (by simp at h2; omega)

theorem chunkBatches_cons {α : Type} (n : Nat) (a : α) (l : List α) :
    chunkBatches n (a :: l)
      = (a :: l.take (n - 1)) :: chunkBatches n (l.drop (n - 1)) := by
  unfold chunkBatches
  simp only [List.length_cons, chunkBatchesGo]
  congr 1
  exact chunkBatchesGo_fuel n l.length (l.drop (n - 1)).length (l.drop (n - 1))
    (by simp [List.length_drop]) (Nat.le_refl _)

theorem chunkBatches_join {α : Type} (n : Nat) (l : List α) :
    (chunkBatches n l).flatten = l := by
  have aux : ∀ (fuel : Nat) (m : List α), m.length ≤ fuel →
      (chunkBatches n m).flatten = m := by
    intro fuel
    induction fuel with
    | zero =>
      intro m hm
      have : m = [] := List.length_eq_zero.mp (Nat.le_zero.mp hm)
      subst this
      rfl
    | succ fuel ih =>
      intro m hm
      cases m with
      | nil => rfl
      | cons a m =>
        rw [chunkBatches_cons, List.flatten_cons]
        rw [ih (m.drop (n - 1)) (by simp [List.length_drop]; simp at hm; omega)]
        rw [List.cons_append, List.take_append_drop]
  exact aux l.length l (Nat.le_refl _)

theorem map_fst_zip_eq_take {α β : Type} :
    ∀ (b : List α) (e : List β), (b.zip e).map Prod.fst = b.take e.length := by
  intro b
  induction b with
  | nil => intro e; simp
  | cons a b ih =>
    intro e
    cases e with
    | nil => simp
    | cons v e => simp [List.zip_cons_cons, ih e]

theorem flatMap_sublist_join {α : Type} (f : List α → List α)
    (h : ∀ b, List.Sublist (f b) b) :
    ∀ bs : List (List α), List.Sublist (bs.flatMap f) bs.flatten := by
  intro bs
  induction bs with
  | nil => simp
  | cons b bs ih =>
    rw [List.flatMap_cons, List.flatten_cons]
    exact List.Sublist.append (h b) ih

/-- Claim C4: batched embedding keeps at most as many chunks as it was
given, in input order (the kept chunks form a sublist of the input);
within each collaborator sub-batch exactly the prefix matched by the
returned vectors is kept, so only unmatched tail chunks are dropped; and
after the `validate_embedding` filter used at the call site
(`store_pdf_with_progress`), every surviving chunk's embedding has the
configured `DIMENSION` (given that the collaborator's declared dimension
is the configured one). -/
theorem generate_embeddings_props (gen : List String → List (List Int))
    (ebs expected_dim : Nat) (chunks : List BChunk)
    (h1 : 1 ≤ ebs) (h2 : expected_dim = DIMENSION) :
    (generate_embeddings_in_batches gen ebs chunks).length ≤ chunks.length ∧
    List.Sublist ((generate_embeddings_in_batches gen ebs chunks).map Prod.fst)
      chunks ∧
    (∀ ce ∈ (generate_embeddings_in_batches gen ebs chunks).filter
        (fun ce => validate_embedding expected_dim ce.2),
      ce.2.length = DIMENSION) ∧
    (generate_embeddings_in_batches gen ebs chunks).map Prod.fst
      = (chunkBatches ebs chunks).flatMap
          (fun b => b.take ((gen (b.map BChunk.text)).length)) := by
  have hmap : (generate_embeddings_in_batches gen ebs chunks).map Prod.fst
      = (chunkBatches ebs chunks).flatMap
          (fun b => b.take ((gen (b.map BChunk.text)).length)) := by
    unfold generate_embeddings_in_batches
    rw [List.map_flatMap]
    congr 1
    funext b
    exact map_fst_zip_eq_take b (gen (b.map BChunk.text))
  have hsub : List.Sublist
      ((generate_embeddings_in_batches gen ebs chunks).map Prod.fst) chunks := by
    rw [hmap]
    have := flatMap_sublist_join
      (fun b => b.take ((gen (b.map BChunk.text)).length))
      (fun b => List.take_sublist _ b) (chunkBatches ebs chunks)
    simpa [chunkBatches_join] using this
  refine ⟨?_, hsub, ?_, hmap⟩
  · have := hsub.length_le
    simpa using this
  · intro ce hce
    have hval := List.of_mem_filter hce
    unfold validate_embedding at hval
    by_cases hemp : ce.2.isEmpty
    · rw [if_pos hemp] at hval; exact absurd hval (by simp)
    · rw [if_neg hemp] at hval
      by_cases hdim : 0 < expected_dim ∧ ce.2.length ≠ expected_dim
      · rw [if_pos hdim] at hval; exact absurd hval (by simp)
      · rw [h2] at hdim
        push_neg at hdim
        have := hdim (by norm_num [DIMENSION])
        omega

/-- Witness for C4: three chunks, sub-batch size 2, a collaborator that
returns a single 384-vector for the first sub-batch and nothing for the
second. -/
theorem generate_embeddings_props_witness :
    (1 ≤ 2) ∧ (384 = DIMENSION) ∧
    ((generate_embeddings_in_batches
        (fun ts => if ts.length = 2 then [List.replicate 384 (0 : Int)] else [])
        2 [⟨0, "x"⟩, ⟨1, "y"⟩, ⟨2, "z"⟩]).length ≤ 3 ∧
      List.Sublist ((generate_embeddings_in_batches
        (fun ts => if ts.length = 2 then [List.replicate 384 (0 : Int)] else [])
        2 [⟨0, "x"⟩, ⟨1, "y"⟩, ⟨2, "z"⟩]).map Prod.fst)
        [⟨0, "x"⟩, ⟨1, "y"⟩, ⟨2, "z"⟩] ∧
      (∀ ce ∈ (generate_embeddings_in_batches
          (fun ts => if ts.length = 2 then [List.replicate 384 (0 : Int)] else [])
          2 [⟨0, "x"⟩, ⟨1, "y"⟩, ⟨2, "z"⟩]).filter
            (fun ce => validate_embedding 384 ce.2),
        ce.2.length = DIMENSION) ∧
      (generate_embeddings_in_batches
        (fun ts => if ts.length = 2 then [List.replicate 384 (0 : Int)] else [])
        2 [⟨0, "x"⟩, ⟨1, "y"⟩, ⟨2, "z"⟩]).map Prod.fst
        = (chunkBatches 2 [⟨0, "x"⟩, ⟨1, "y"⟩, ⟨2, "z"⟩]).flatMap
            (fun b => b.take
              (((fun ts => if ts.length = 2
                  then [List.replicate 384 (0 : Int)] else [])
                (b.map BChunk.text)).length))) :=
  ⟨by norm_num, rfl,
    generate_embeddings_props
      (fun ts => if ts.length = 2 then [List.replicate 384 (0 : Int)] else [])
      2 384 [⟨0, "x"⟩, ⟨1, "y"⟩, ⟨2, "z"⟩] (by norm_num) rfl⟩

theorem storeBatchStep_invariant (gen : List String → List (List Int))
    (ebs dim : Nat) (insertOk : List (BChunk × List Int) → Bool)
    (st : StoreState) (batch : List BChunk)
    (h : 0 < st.succ ↔ st.stored ≠ []) :
    0 < (storeBatchStep gen ebs dim insertOk st batch).succ ↔
      (storeBatchStep gen ebs dim insertOk st batch).stored ≠ [] := by
  unfold storeBatchStep
  by_cases h1 : (generate_embeddings_in_batches gen ebs batch).isEmpty
  · rw [if_pos h1]
    exact h
  · rw [if_neg h1]
    by_cases h2 : ((generate_embeddings_in_batches gen ebs batch).filter
        fun ce => validate_embedding dim ce.2).isEmpty
    · rw [if_pos h2]
      exact h
    · rw [if_neg h2]
      by_cases h3 : insertOk ((generate_embeddings_in_batches gen ebs batch).filter
          fun ce => validate_embedding dim ce.2) = true
    
      · rw [if_pos h3]
        have hne : ((generate_embeddings_in_batches gen ebs batch).filter
            fun ce => validate_embedding dim ce.2) ≠ [] := by
          intro hh
          rw [hh] at h2
          exact h2 rfl
        constructor
        · intro _
          simp only [ne_eq, List.append_eq_nil]
          rintro ⟨-, hv⟩
          exact hne hv
        · intro _
          have : 0 < ((generate_embeddings_in_batches gen ebs batch).filter
              fun ce => validate_embedding dim ce.2).length :=
            List.length_pos.mpr hne
          simp only []
          omega
      · rw [if_neg h3]
        exact h

theorem foldl_store_invariant (gen : List String → List (List Int))
    (ebs dim : Nat) (insertOk : List (BChunk × List Int) → Bool) :
    ∀ (batches : List (List BChunk)) (st : StoreState),
      (0 < st.succ ↔ st.stored ≠ []) →
      (0 < (batches.foldl (storeBatchStep gen ebs dim insertOk) st).succ ↔
        (batches.foldl (storeBatchStep gen ebs dim insertOk) st).stored ≠ []) := by
  intro batches
  induction batches with
  | nil => intro st h; exact h
  | cons b bs ih =>
    intro st h
    rw [List.foldl_cons]
    exact ih _ (storeBatchStep_invariant gen ebs dim insertOk st b h)

/-- Claim C5: `store_pdf_with_progress` returns `True` exactly when at
least one chunk was handed to a successful Milvus insertion; in
particular a PDF producing zero chunks returns `False` (and the model is
a total function: no exception escapes). -/
theorem store_success_iff (fileExists : Bool) (allChunks : List BChunk)
    (bs ebs dim : Nat) (gen : List String → List (List Int))
    (insertOk : List (BChunk × List Int) → Bool)
    (hbs : 1 ≤ bs) (hebs : 1 ≤ ebs) :
    (store_pdf_with_progress fileExists allChunks bs ebs dim gen insertOk).1
        = true ↔
      (store_pdf_with_progress fileExists allChunks bs ebs dim gen insertOk).2
        ≠ [] := by
  unfold store_pdf_with_progress
  by_cases hf : fileExists = true
  · rw [hf]
    simp only [Bool.not_true, Bool.false_eq_true, if_false]
    by_cases he : allChunks.isEmpty
    · rw [if_pos he]
      simp
    · rw [if_neg he]
      have := foldl_store_invariant gen ebs dim insertOk
        (chunkBatches bs allChunks) ⟨0, 0, []⟩ (by simp)
      simpa [decide_eq_true_iff] using this
  · have : fileExists = false := by
      cases fileExists
      · rfl
      · exact absurd rfl hf
    rw [this]
    simp

/-- Witness for C5: an existing file that yields zero chunks returns
failure with nothing stored. -/
theorem store_success_iff_witness :
    (1 ≤ 1) ∧
    ((store_pdf_with_progress true [] 1 1 384 (fun _ => [])
        (fun _ => true)).1 = true ↔
      (store_pdf_with_progress true [] 1 1 384 (fun _ => [])
        (fun _ => true)).2 ≠ []) :=
  ⟨by norm_num,
    store_success_iff true [] 1 1 384 (fun _ => []) (fun _ => true)
      (by norm_num) (by norm_num)⟩

/-- Claim C8: `create_collection` always leaves a collection whose field
list is exactly the expected schema; an existing collection with
matching fields is kept as-is (its rows survive), and one with a
mismatched field list is dropped and recreated empty. -/
theorem create_collection_schema (s : Option CollectionInfo) :
    (∃ c', (create_collection s).1 = some c'
      ∧ c'.fields = expectedFieldNames) ∧
    (∀ c, s = some c → c.fields = expectedFieldNames →
      (create_collection s).1 = some c) ∧
    (∀ c, s = some c → c.fields ≠ expectedFieldNames →
      (create_collection s).1 = some freshCollection
        ∧ freshCollection.rows = 0) := by
  cases s with
  | none =>
    refine ⟨⟨freshCollection, rfl, rfl⟩, ?_, ?_⟩
    · intro c hc; exact absurd hc (by simp)
    · intro c hc; exact absurd hc (by simp)
  | some c =>
    by_cases hmatch : c.fields = expectedFieldNames
    · refine ⟨⟨c, ?_, hmatch⟩, ?_, ?_⟩
      · simp [create_collection, hmatch]
      · intro c' hc' _
        simp only [Option.some_inj] at hc'
        subst hc'
        simp [create_collection, hmatch]
      · intro c' hc' hne
        simp only [Option.some_inj] at hc'
        subst hc'
        exact absurd hmatch hne
    · refine ⟨⟨freshCollection, ?_, rfl⟩, ?_, ?_⟩
      · simp [create_collection, hmatch]
      · intro c' hc' heq
        simp only [Option.some_inj] at hc'
        subst hc'
        exact absurd heq hmatch
      · intro c' hc' _
        simp only [Option.some_inj] at hc'
        subst hc'
        exact ⟨by simp [create_collection, hmatch], rfl⟩

/-- Witness for C8: an existing collection with a wrong field list is
dropped and recreated empty with the expected fields. -/
theorem create_collection_schema_witness :
    (some (⟨["id", "text"], 5⟩ : CollectionInfo)
      = some (⟨["id", "text"], 5⟩ : CollectionInfo)) ∧
    ((⟨["id", "text"], 5⟩ : CollectionInfo).fields ≠ expectedFieldNames) ∧
    ((create_collection (some ⟨["id", "text"], 5⟩)).1 = some freshCollection
      ∧ freshCollection.rows = 0) :=
  ⟨rfl, by decide,
    (create_collection_schema (some ⟨["id", "text"], 5⟩)).2.2
      ⟨["id", "text"], 5⟩ rfl (by decide)⟩

/-- Claim C10: `insert_documents` (with an initialized collection and a
non-empty batch) rejects nothing for being too long: a record with all
required fields is always inserted, with `document_id` truncated to its
first 100 characters and `text` to its first `MAX_TEXT_LENGTH`
characters; records missing a required field are skipped (everything
inserted comes from a record that validated), and the call returns
`False` exactly when no record has all required fields. -/
theorem insert_documents_props (docs : List InsDoc) (hne : docs ≠ []) :
    ((insert_documents true docs).1 = false ↔
      ∀ e ∈ docs, toValidDoc e = none) ∧
    (∀ v ∈ (insert_documents true docs).2, ∃ e ∈ docs, toValidDoc e = some v) ∧
    (∀ d ∈ docs, ∀ (did : String) (pn cid : Int) (tx : String)
        (emb : List Int),
      d.document_id = some did → d.page_number = some pn →
      d.chunk_id = some cid → d.text = some tx → d.embedding = some emb →
      (insert_documents true docs).1 = true ∧
      (⟨pyTake 100 did, pn, cid, pyTake MAX_TEXT_LENGTH tx, emb⟩ : ValidDoc)
        ∈ (insert_documents true docs).2) := by
  have hne' : docs.isEmpty = false := by
    cases docs with
    | nil => exact absurd rfl hne
    | cons _ _ => rfl
  by_cases hv : (docs.filterMap toValidDoc).isEmpty
  · have hveq : docs.filterMap toValidDoc = [] := by
      cases hfm : docs.filterMap toValidDoc with
      | nil => rfl
      | cons _ _ => rw [hfm] at hv; simp at hv
    have hres : insert_documents true docs = (false, []) := by
      simp [insert_documents, hne', hv]
    refine ⟨?_, ?_, ?_⟩
    · rw [hres]
      simp only [true_iff]
      intro e he
      have := List.filterMap_eq_nil_iff.mp hveq
      exact this e he
    · rw [hres]
      intro v hv'
      simp at hv'
    · intro d hd did pn cid tx emb hdid hpn hcid htx hemb
      have hval : toValidDoc d
          = some ⟨pyTake 100 did, pn, cid, pyTake MAX_TEXT_LENGTH tx, emb⟩ := by
        simp [toValidDoc, hdid, hpn, hcid, htx, hemb]
      have : toValidDoc d = none := List.filterMap_eq_nil_iff.mp hveq d hd
      rw [hval] at this
      exact absurd this (by simp)
  · have hres : insert_documents true docs = (true, docs.filterMap toValidDoc) := by
      simp [insert_documents, hne', hv]
    refine ⟨?_, ?_, ?_⟩
    · rw [hres]
      simp only [Bool.true_eq_false, false_iff]
      intro hall
      have : docs.filterMap toValidDoc = [] := List.filterMap_eq_nil_iff.mpr hall
      rw [this] at hv
      exact hv rfl
    · rw [hres]
      intro v hv'
      exact List.mem_filterMap.mp hv'
    · intro d hd did pn cid tx emb hdid hpn hcid htx hemb
      have hval : toValidDoc d
          = some ⟨pyTake 100 did, pn, cid, pyTake MAX_TEXT_LENGTH tx, emb⟩ := by
        simp [toValidDoc, hdid, hpn, hcid, htx, hemb]
      rw [hres]
      exact ⟨rfl, List.mem_filterMap.mpr ⟨d, hd, hval⟩⟩

/-- Witness for C10: one record with a 150-character `document_id` and a
record missing `document_id`; the first is inserted truncated, and the
call succeeds. -/
theorem insert_documents_props_witness :
    ([(⟨some (String.mk (List.replicate 150 'd')), some 1, some 2,
        some "t", some [5]⟩ : InsDoc),
      ⟨none, some 1, some 1, some "u", some [1]⟩] ≠ []) ∧
    ((⟨some (String.mk (List.replicate 150 'd')), some 1, some 2,
        some "t", some [5]⟩ : InsDoc)
      ∈ [(⟨some (String.mk (List.replicate 150 'd')), some 1, some 2,
          some "t", some [5]⟩ : InsDoc),
        ⟨none, some 1, some 1, some "u", some [1]⟩]) ∧
    ((insert_documents true
        [(⟨some (String.mk (List.replicate 150 'd')), some 1, some 2,
            some "t", some [5]⟩ : InsDoc),
          ⟨none, some 1, some 1, some "u", some [1]⟩]).1 = true ∧
      (⟨pyTake 100 (String.mk (List.replicate 150 'd')), 1, 2,
        pyTake MAX_TEXT_LENGTH "t", [5]⟩ : ValidDoc)
        ∈ (insert_documents true
          [(⟨some (String.mk (List.replicate 150 'd')), some 1, some 2,
              some "t", some [5]⟩ : InsDoc),
            ⟨none, some 1, some 1, some "u", some [1]⟩]).2) :=
  ⟨by decide, by decide,
    (insert_documents_props
      [⟨some (String.mk (List.replicate 150 'd')), some 1, some 2,
          some "t", some [5]⟩,
        ⟨none, some 1, some 1, some "u", some [1]⟩] (by decide)).2.2
      ⟨some (String.mk (List.replicate 150 'd')), some 1, some 2,
        some "t", some [5]⟩
      (by decide) (String.mk (List.replicate 150 'd')) 1 2 "t" [5]
      rfl rfl rfl rfl rfl⟩
